import Mathlib

/-!
Verification of the pondus core: identity resolution (src/alias.rs),
freshness cache (src/cache.rs) and the aggregation pipeline (src/main.rs).

Rust strings are modelled as lists of characters; `str::to_lowercase`
is modelled by mapping `Char.toLower` (they agree on ASCII, which is the
only alphabet the alias datasets and model names use).  The `HashMap`
backing the alias map is modelled as an association list whose order is
the map's iteration order; key uniqueness is carried as a hypothesis
where a proof needs it.
-/

namespace Pondus

/-- Rust `String` / `&str`, modelled as a list of characters. -/
abbrev Str := List Char

/-- Rust `str::to_lowercase` (character-wise `Char.toLower`). -/
def toLowerStr (s : Str) : Str := s.map Char.toLower

/-- The identity map `AliasMap.to_canonical : HashMap<String, String>`,
as an association list in iteration order. -/
abbrev AliasMap := List (Str × Str)

/-- The separator test in `AliasMap::prefix_match`:
`next_char == b'-' || next_char == b'(' || next_char == b' '`. -/
def isSeparator (c : Char) : Bool :=
  c == '-' || c == '(' || c == ' '

/-- Does position `i` of `s` hold a separator?  Models the
`lower_name.as_bytes()[alias.len()]` access followed by the separator
test (the index is in bounds whenever the length guard holds). -/
def isSepAt (s : Str) (i : Nat) : Bool :=
  match s[i]? with
  | some c => isSeparator c
  | none => false

/-- The per-pair candidate test inside the loop of `AliasMap::prefix_match`:
`lower_name.len() > alias.len() && lower_name.starts_with(alias)` and the
character right after the prefix is a separator. -/
def isCandidate (lower_name al : Str) : Bool :=
  decide (al.length < lower_name.length) && al.isPrefixOf lower_name &&
    isSepAt lower_name al.length

/-- One iteration of the loop body of `AliasMap::prefix_match`: keep the
running best `(len, canonical)` pair, replacing it when the current pair
is a candidate and is `None` or strictly longer
(`best.as_ref().is_none_or(|(best_len, _)| len > *best_len)`). -/
def stepBest (lower_name : Str) (best : Option (Nat × Str)) (p : Str × Str) :
    Option (Nat × Str) :=
  if isCandidate lower_name p.1 then
    match best with
    | none => some (p.1.length, p.2)
    | some (best_len, best_c) =>
      if best_len < p.1.length then some (p.1.length, p.2) else some (best_len, best_c)
  else best

/-- `AliasMap::prefix_match`: fold the loop over the map in iteration
order and return the canonical of the best pair, if any. -/
def prefix_match (map : AliasMap) (lower_name : Str) : Option Str :=
  (map.foldl (stepBest lower_name) none).map (fun p => p.2)

/-- `AliasMap::resolve`: lowercase, exact lookup first, then prefix
match, then fall back to the lowercased input. -/
def resolve (map : AliasMap) (name : Str) : Str :=
  let lower := toLowerStr name
  match List.lookup lower map with
  | some canonical => canonical
  | none =>
    match prefix_match map lower with
    | some canonical => canonical
    | none => lower

/-- `AliasMap::matches`: `self.resolve(source_name) == canonical.to_lowercase()`.
The Rust name `matches` is a Lean keyword, hence the suffix. -/
def matchesSrc (map : AliasMap) (source_name canonical : Str) : Bool :=
  resolve map source_name == toLowerStr canonical

/-- One `[entry]` of a models.toml alias dataset (struct `AliasEntry`). -/
structure AliasEntry where
  canonical : Str
  aliases : List Str

/-- `HashMap::insert`: overwrite the value when the key is already
present, otherwise add the binding. -/
def insertKV (map : AliasMap) (k v : Str) : AliasMap :=
  if map.any (fun p => p.1 == k) then
    map.map (fun p => if p.1 == k then (k, v) else p)
  else map ++ [(k, v)]

/-- `AliasMap::parse_into`: for each entry, lowercase the canonical, map
it to itself, then map each lowercased alias to it.  The entry order is
the iteration order of the parsed TOML table. -/
def parse_into (entries : List AliasEntry) (map : AliasMap) : AliasMap :=
  entries.foldl
    (fun m e =>
      let canonical := toLowerStr e.canonical
      e.aliases.foldl (fun m2 a => insertKV m2 (toLowerStr a) canonical)
        (insertKV m canonical canonical))
    map

/-- `AliasMap::load`: parse the bundled dataset, then parse the user
override dataset on top of it.  The two datasets appear as parameters
here (the bundled models.toml data file and the override file on disk
are inputs of the program, not code). -/
def load (bundled override : List AliasEntry) : AliasMap :=
  parse_into override (parse_into bundled [])

/-- `MetricValue` (src/models.rs).  An `f64` metric is carried opaquely
by its bit pattern: no code under verification computes with metrics,
they travel through the pipeline unchanged. -/
inductive MetricValue where
  | float (bits : Nat)
  | int (i : Int)
  | text (t : Str)
deriving DecidableEq

/-- `ModelScore` (src/models.rs); the metrics `HashMap` is carried as an
association list. -/
structure ModelScore where
  model : Str
  source_model_name : Str
  metrics : List (Str × MetricValue)
  rank : Option Nat
deriving DecidableEq

/-- `SourceStatus` (src/models.rs). -/
inductive SourceStatus where
  | ok
  | cached
  | unavailable
  | error (msg : Str)
deriving DecidableEq

/-- `SourceResult` (src/models.rs); timestamps are seconds as integers. -/
structure SourceResult where
  source : Str
  fetched_at : Option Int
  status : SourceStatus
  scores : List ModelScore
deriving DecidableEq

/-- A registered source collaborator (trait `Source`): a name and the
outcome of its `fetch(config, cache)` call.  `fetch_all` hands every
source the same shared `&Config` and `&Cache`, so for one `fetch_all`
round the outcome is a fixed value per source, `Ok` or `Err`. -/
structure Source where
  name : Str
  fetch : Except Str SourceResult

/-- The match arm inside `fetch_all`: an `Err(e)` from a source becomes
a `SourceResult` with `status: Error(e.to_string())` and no scores. -/
def fetchOne (s : Source) : SourceResult :=
  match s.fetch with
  | Except.ok result => result
  | Except.error e => ⟨s.name, none, SourceStatus.error e, []⟩

/-- `fetch_all` (src/main.rs): map `fetchOne` over the registered
sources in registration order. -/
def fetch_all (srcs : List Source) : List SourceResult :=
  srcs.map fetchOne

/-- The score filter of `cmd_check`: `s.model.to_lowercase() == canonical
|| aliases.matches(&s.source_model_name, &canonical)`. -/
def checkPred (map : AliasMap) (canonical : Str) (s : ModelScore) : Bool :=
  toLowerStr s.model == canonical || matchesSrc map s.source_model_name canonical

/-- The filtering core of `cmd_check` (src/main.rs): resolve the query,
then retain in each source result only the scores passing `checkPred`.
Rendering and printing sit outside the model. -/
def cmd_check (map : AliasMap) (model : Str) (results : List SourceResult) :
    List SourceResult :=
  let canonical := resolve map model
  results.map (fun r => { r with scores := r.scores.filter (checkPred map canonical) })

/-- The score filter of `cmd_compare`: resolve the source model name and
keep the score when it equals either canonical. -/
def comparePred (map : AliasMap) (c1 c2 : Str) (s : ModelScore) : Bool :=
  let resolved := resolve map s.source_model_name
  resolved == c1 || resolved == c2

/-- The filtering core of `cmd_compare` (src/main.rs). -/
def cmd_compare (map : AliasMap) (model1 model2 : Str) (results : List SourceResult) :
    List SourceResult :=
  let c1 := resolve map model1
  let c2 := resolve map model2
  results.map (fun r => { r with scores := r.scores.filter (comparePred map c1 c2) })

/-- The truncation core of `cmd_rank` (src/main.rs): with `top = Some n`
every source's score list is truncated to its first `n` entries. -/
def cmd_rank (results : List SourceResult) (top : Option Nat) : List SourceResult :=
  match top with
  | some n => results.map (fun r => { r with scores := r.scores.take n })
  | none => results

/-- The core of `cmd_sources` (src/main.rs): `fetch_all` output with no
filtering. -/
def cmd_sources (results : List SourceResult) : List SourceResult :=
  results

/-- The per-source frame of a `SourceResult`: every field except the
scores. -/
def frameOf (r : SourceResult) : Str × Option Int × SourceStatus :=
  (r.source, r.fetched_at, r.status)

/-- `CacheEntry` (src/cache.rs); `fetched_at` in seconds, `ttl_hours`
the `u64` field, `data` the opaque payload. -/
structure CacheEntry (α : Type) where
  fetched_at : Int
  ttl_hours : Nat
  data : α
deriving DecidableEq

/-- Content of the file backing one cache key: either a document that
deserializes into a `CacheEntry`, or bytes `serde_json` rejects. -/
inductive RawFile (α : Type) where
  | entry (e : CacheEntry α)
  | corrupt
deriving DecidableEq

/-- Reinterpretation of a `u64` value as an `i64`: the Rust cast
`entry.ttl_hours as i64` in `Cache::get`. -/
def u64AsI64 (n : Nat) : Int :=
  if n % 2 ^ 64 < 2 ^ 63 then ((n % 2 ^ 64 : Nat) : Int)
  else ((n % 2 ^ 64 : Nat) : Int) - 2 ^ 64

/-- chrono `Duration::num_hours` on an age given in seconds: whole
hours, with division truncating toward zero. -/
def numHours (seconds : Int) : Int :=
  seconds.tdiv 3600

/-- `Cache::get` (src/cache.rs).  The filesystem under the cache
directory is the map `store` from key to file content; a missing or
unreadable file is `none`.  Read the file, parse it, compare the whole-
hour age against the stored ttl cast to `i64`. -/
def Cache.get {α : Type} (store : Str → Option (RawFile α)) (source : Str) (now : Int) :
    Option (Int × α) :=
  match store source with
  | none => none
  | some RawFile.corrupt => none
  | some (RawFile.entry e) =>
    if numHours (now - e.fetched_at) < u64AsI64 e.ttl_hours then some (e.fetched_at, e.data)
    else none

/-- `Cache::set` (src/cache.rs): serialize `{fetched_at: now, ttl_hours,
data}` and atomically install it at the key's path.  The temp-file,
fsync and rename steps only ensure the visible path always holds one
complete document, so the net effect on the store is this point update. -/
def Cache.set {α : Type} (store : Str → Option (RawFile α)) (ttl_hours : Nat)
    (source : Str) (data : α) (now : Int) : Str → Option (RawFile α) :=
  fun k => if k = source then some (RawFile.entry ⟨now, ttl_hours, data⟩) else store k

/-! Concrete data used by the witnesses and counterexamples below. -/

/-- The string gpt-5. -/
def g5 : Str := ['g', 'p', 't', '-', '5']

/-- The string gpt-5-pro. -/
def g5pro : Str := ['g', 'p', 't', '-', '5', '-', 'p', 'r', 'o']

/-- The query gpt-5-pro-max. -/
def qMax : Str := ['g', 'p', 't', '-', '5', '-', 'p', 'r', 'o', '-', 'm', 'a', 'x']

/-- A map with canonicals gpt-5 and gpt-5-pro registered as their own
aliases, in that iteration order. -/
def mG5 : AliasMap := [(g5, g5), (g5pro, g5pro)]

/-- The same map in the opposite iteration order. -/
def mG5r : AliasMap := [(g5pro, g5pro), (g5, g5)]

/-- A dataset registering only the canonical gpt-5. -/
def dsG5 : List AliasEntry := [⟨g5, []⟩]

/-- A dataset whose single entry has the empty string as canonical and
the alias x. -/
def dsEmptyCanon : List AliasEntry := [⟨[], [['x']]⟩]

/-- A bundled dataset: canonical a with alias x. -/
def dsA : List AliasEntry := [⟨['a'], [['x']]⟩]

/-- An override dataset: canonical b with alias a, capturing an earlier
entry's canonical as its own alias. -/
def dsB : List AliasEntry := [⟨['b'], [['a']]⟩]

/-- A map where every canonical maps to itself: gpt-5 with alias gpt5. -/
def mIdem : AliasMap := load [⟨g5, [['g', 'p', 't', '5']]⟩] []

/-- A successful result for source a. -/
def rA : SourceResult := ⟨['a'], some 0, SourceStatus.ok, []⟩

/-- A successful result for source c. -/
def rC : SourceResult := ⟨['c'], some 0, SourceStatus.ok, []⟩

/-- Three registered sources whose middle fetch fails with message boom. -/
def srcsEx : List Source :=
  [⟨['a'], Except.ok rA⟩,
   ⟨['b'], Except.error ['b', 'o', 'o', 'm']⟩,
   ⟨['c'], Except.ok rC⟩]

/-- The identity map used by the check and compare witnesses: only the
canonical gpt-5 is registered. -/
def mCheck : AliasMap := load dsG5 []

/-- The query GPT-5.2 (uppercase, version dot). -/
def qG52U : Str := ['G', 'P', 'T', '-', '5', '.', '2']

/-- A score with model gpt-5.2 and source model name GPT-5.2. -/
def scoreG52 : ModelScore :=
  ⟨['g', 'p', 't', '-', '5', '.', '2'], ['G', 'P', 'T', '-', '5', '.', '2'], [], some 2⟩

/-- An unrelated score for the model claude. -/
def scoreOther : ModelScore :=
  ⟨['c', 'l', 'a', 'u', 'd', 'e'], ['C', 'l', 'a', 'u', 'd', 'e'], [], some 1⟩

/-- A source result holding the unrelated score and the gpt-5.2 score. -/
def rCheck : SourceResult :=
  ⟨['m', 'o', 'c', 'k'], some 0, SourceStatus.ok, [scoreOther, scoreG52]⟩

/-- The gpt-5.2 source result after filtering by check. -/
def rCheckOut : SourceResult :=
  { rCheck with scores := [scoreG52] }

/-- A score whose raw source model name GPT-5 high resolves to gpt-5 by
prefix matching on the space separator. -/
def scoreKeep : ModelScore :=
  ⟨g5, ['G', 'P', 'T', '-', '5', ' ', 'h', 'i', 'g', 'h'], [], some 1⟩

/-- A source result holding only `scoreKeep`. -/
def rCmp : SourceResult :=
  ⟨['m', 'o', 'c', 'k'], some 0, SourceStatus.ok, [scoreKeep]⟩

/-- The query claude for the compare witness. -/
def qClaude : Str := ['c', 'l', 'a', 'u', 'd', 'e']

/-- A cache store holding one entry whose ttl_hours is 2 ^ 63 (a value
`serde_json` accepts for the u64 field). -/
def bigStore : Str → Option (RawFile Nat) :=
  fun k => if k = ['a'] then some (RawFile.entry ⟨0, 2 ^ 63, 0⟩) else none

/-- A cache store with no files at all. -/
def emptyStore : Str → Option (RawFile Nat) :=
  fun _ => none

/-- A cache store whose file for key a does not parse. -/
def corruptStore : Str → Option (RawFile Nat) :=
  fun k => if k = ['a'] then some RawFile.corrupt else none

/-! Helper lemmas: characters and lowercase strings. -/

theorem toNat_ofNat_of_lt {n : Nat} (h : n < 55296) : (Char.ofNat n).toNat = n := by
  rw [Char.ofNat, dif_pos (Or.inl h : Nat.isValidChar n)]
  rfl

theorem toLower_eq_self (c : Char) (h : ¬(c.toNat ≥ 65 ∧ c.toNat ≤ 90)) :
    Char.toLower c = c := by
  unfold Char.toLower
  rw [if_neg h]

theorem toLower_idem (c : Char) : Char.toLower (Char.toLower c) = Char.toLower c := by
  apply toLower_eq_self
  unfold Char.toLower
  by_cases h : c.toNat ≥ 65 ∧ c.toNat ≤ 90
  · rw [if_pos h]
    have hv := toNat_ofNat_of_lt (n := c.toNat + 32) (by omega)
    rw [hv]
    omega
  · rw [if_neg h]
    exact h

theorem toLowerStr_idem (s : Str) : toLowerStr (toLowerStr s) = toLowerStr s := by
  induction s with
  | nil => rfl
  | cons c cs ih =>
    simp only [toLowerStr, List.map_cons] at ih ⊢
    rw [toLower_idem]
    exact congrArg _ ih

theorem length_toLowerStr (s : Str) : (toLowerStr s).length = s.length :=
  List.length_map s Char.toLower

/-! Helper lemmas: association-list lookup with unique keys. -/

theorem lookup_mem {m : AliasMap} {k v : Str} (h : List.lookup k m = some v) :
    (k, v) ∈ m := by
  induction m with
  | nil => simp [List.lookup] at h
  | cons p m ih =>
    rw [List.lookup_cons] at h
    by_cases hk : k == p.1
    · simp only [hk] at h
      cases h
      have : k = p.1 := by simpa using hk
      subst this
      exact List.mem_cons_self _ _
    · simp only [Bool.not_eq_true] at hk
      simp only [hk] at h
      exact List.mem_cons_of_mem _ (ih h)

theorem lookup_eq_some_of_mem {m : AliasMap} (hnd : (m.map Prod.fst).Nodup)
    {k v : Str} (hm : (k, v) ∈ m) : List.lookup k m = some v := by
  induction m with
  | nil => cases hm
  | cons p m ih =>
    rw [List.map_cons, List.nodup_cons] at hnd
    rw [List.lookup_cons]
    rcases List.mem_cons.mp hm with hp | hp
    · subst hp
      simp
    · have hk : ¬(k = p.1) := by
        intro hkp
        exact hnd.1 (hkp ▸ List.mem_map_of_mem Prod.fst hp)
      have hk2 : (k == p.1) = false := by simpa using hk
      rw [hk2]
      exact ih hnd.2 hp

theorem mem_value_unique {m : AliasMap} (hnd : (m.map Prod.fst).Nodup)
    {k v v2 : Str} (h1 : (k, v) ∈ m) (h2 : (k, v2) ∈ m) : v = v2 := by
  have e1 := lookup_eq_some_of_mem hnd h1
  have e2 := lookup_eq_some_of_mem hnd h2
  rw [e1] at e2
  exact (Option.some.injEq _ _).mp e2

theorem lookup_perm {m1 m2 : AliasMap} (hperm : List.Perm m1 m2)
    (hnd : (m1.map Prod.fst).Nodup) (k : Str) :
    List.lookup k m1 = List.lookup k m2 := by
  have hnd2 : (m2.map Prod.fst).Nodup := ((hperm.map Prod.fst).nodup_iff).mp hnd
  cases h1 : List.lookup k m1 with
  | some v =>
    have : (k, v) ∈ m2 := hperm.mem_iff.mp (lookup_mem h1)
    rw [lookup_eq_some_of_mem hnd2 this]
  | none =>
    cases h2 : List.lookup k m2 with
    | none => rfl
    | some v =>
      have : (k, v) ∈ m1 := hperm.mem_iff.mpr (lookup_mem h2)
      rw [lookup_eq_some_of_mem hnd this] at h1
      cases h1

/-! Helper lemmas: the prefix-match fold. -/

theorem isCandidate_iff {lower al : Str} :
    isCandidate lower al = true ↔
      al.length < lower.length ∧ al <+: lower ∧ isSepAt lower al.length = true := by
  simp [ isCandidate, Bool.and_eq_true, decide_eq_true_eq, and_assoc,
    List.isPrefixOf_iff_prefix]

theorem prefix_eq_of_length_eq {l1 l2 t : Str} (h1 : l1 <+: t) (h2 : l2 <+: t)
    (hl : l1.length = l2.length) : l1 = l2 := by
  rw [List.prefix_iff_eq_take] at h1 h2
  rw [h1, h2, hl]

theorem stepBest_eq_none {lower : Str} {b : Option (Nat × Str)} {p : Str × Str} :
    stepBest lower b p = none ↔ b = none ∧ isCandidate lower p.1 = false := by
  rcases b with _ | ⟨bl, bc⟩ <;> by_cases hc : isCandidate lower p.1 = true <;>
    simp [stepBest, hc]
  split <;> simp

theorem foldl_stepBest_eq_none {lower : Str} :
    ∀ (m : AliasMap) (b : Option (Nat × Str)),
      List.foldl (stepBest lower) b m = none ↔
        b = none ∧ ∀ p ∈ m, isCandidate lower p.1 = false
  | [], b => by simp
  | p :: m, b => by
    rw [List.foldl_cons, foldl_stepBest_eq_none m (stepBest lower b p), stepBest_eq_none]
    constructor
    · rintro ⟨⟨hb, hc⟩, hall⟩
      refine ⟨hb, fun q hq => ?_⟩
      rcases List.mem_cons.mp hq with rfl | hq2
      · exact hc
      · exact hall q hq2
    · rintro ⟨hb, hall⟩
      exact ⟨⟨hb, hall p (List.mem_cons_self _ _)⟩,
        fun q hq => hall q (List.mem_cons_of_mem _ hq)⟩

theorem foldl_stepBest_mem {lower : Str} :
    ∀ (m : AliasMap) (b : Option (Nat × Str)) (x : Nat × Str),
      List.foldl (stepBest lower) b m = some x →
      b = some x ∨ ∃ p, p ∈ m ∧ p.2 = x.2
  | [], _, _ => fun h => Or.inl h
  | p :: m, b, x => fun h => by
    rw [List.foldl_cons] at h
    rcases foldl_stepBest_mem m (stepBest lower b p) x h with hsb | ⟨q, hq, hqx⟩
    · unfold stepBest at hsb
      by_cases hc : isCandidate lower p.1 = true
      · rw [if_pos hc] at hsb
        rcases b with _ | ⟨bl, bc⟩
        · cases hsb
          exact Or.inr ⟨p, List.mem_cons_self _ _, rfl⟩
        · dsimp only at hsb
          by_cases h2 : bl < p.1.length
          · rw [if_pos h2] at hsb
            cases hsb
            exact Or.inr ⟨p, List.mem_cons_self _ _, rfl⟩
          · rw [if_neg h2] at hsb
            exact Or.inl hsb
      · rw [if_neg hc] at hsb
        exact Or.inl hsb
    · exact Or.inr ⟨q, List.mem_cons_of_mem _ hq, hqx⟩

theorem foldl_stepBest_max {lower : Str} {n : Nat} {c0 : Str} :
    ∀ (m : AliasMap) (b : Option (Nat × Str)),
      (∀ p ∈ m, isCandidate lower p.1 = true →
        p.1.length ≤ n ∧ (p.1.length = n → p.2 = c0)) →
      (b = none ∨ ∃ bl bc, b = some (bl, bc) ∧ bl ≤ n ∧ (bl = n → bc = c0)) →
      ((∃ p ∈ m, isCandidate lower p.1 = true ∧ p.1.length = n) ∨ ∃ bc, b = some (n, bc)) →
      List.foldl (stepBest lower) b m = some (n, c0)
  | [], b, _, hP, hA => by
    rcases hA with ⟨p, hp, _⟩ | ⟨bc, hb⟩
    · cases hp
    · subst hb
      rcases hP with h | ⟨bl, bc2, hb2, _, him⟩
      · cases h
      · simp only [Option.some.injEq, Prod.mk.injEq] at hb2
        rw [List.foldl_nil, hb2.2, him hb2.1.symm]
  | p :: m, b, hH, hP, hA => by
    rw [List.foldl_cons]
    have hH2 : ∀ q ∈ m, isCandidate lower q.1 = true →
        q.1.length ≤ n ∧ (q.1.length = n → q.2 = c0) :=
      fun q hq => hH q (List.mem_cons_of_mem _ hq)
    by_cases hc : isCandidate lower p.1 = true
    · have hpb := hH p (List.mem_cons_self _ _) hc
      rcases hP with hbnone | ⟨bl, bc, hb, hble, him⟩
      · subst hbnone
        have hstep : stepBest lower none p = some (p.1.length, p.2) := by
          unfold stepBest
          rw [if_pos hc]
        rw [hstep]
        refine foldl_stepBest_max m _ hH2
          (Or.inr ⟨p.1.length, p.2, rfl, hpb.1, hpb.2⟩) ?_
        rcases hA with ⟨q, hq, hqc, hqn⟩ | ⟨bc, hb⟩
        · rcases List.mem_cons.mp hq with rfl | hq2
          · exact Or.inr ⟨q.2, by rw [hqn]⟩
          · exact Or.inl ⟨q, hq2, hqc, hqn⟩
        · cases hb
      · subst hb
        have hstep : stepBest lower (some (bl, bc)) p =
            if bl < p.1.length then some (p.1.length, p.2) else some (bl, bc) := by
          unfold stepBest
          rw [if_pos hc]
        rw [hstep]
        by_cases h2 : bl < p.1.length
        · rw [if_pos h2]
          refine foldl_stepBest_max m _ hH2
            (Or.inr ⟨p.1.length, p.2, rfl, hpb.1, hpb.2⟩) ?_
          rcases hA with ⟨q, hq, hqc, hqn⟩ | ⟨bc2, hb2⟩
          · rcases List.mem_cons.mp hq with rfl | hq2
            · exact Or.inr ⟨q.2, by rw [hqn]⟩
            · exact Or.inl ⟨q, hq2, hqc, hqn⟩
          · simp only [Option.some.injEq, Prod.mk.injEq] at hb2
            have : p.1.length ≤ n := hpb.1
            omega
        · rw [if_neg h2]
          refine foldl_stepBest_max m _ hH2 (Or.inr ⟨bl, bc, rfl, hble, him⟩) ?_
          rcases hA with ⟨q, hq, hqc, hqn⟩ | ⟨bc2, hb2⟩
          · rcases List.mem_cons.mp hq with rfl | hq2
            · refine Or.inr ⟨bc, ?_⟩
              have hbln : bl = n := by omega
              rw [hbln]
            · exact Or.inl ⟨q, hq2, hqc, hqn⟩
          · simp only [Option.some.injEq, Prod.mk.injEq] at hb2
            refine Or.inr ⟨bc, ?_⟩
            rw [hb2.1]
    · have hstep : stepBest lower b p = b := by
        unfold stepBest
        rw [if_neg hc]
      rw [hstep]
      refine foldl_stepBest_max m b hH2 hP ?_
      rcases hA with ⟨q, hq, hqc, hqn⟩ | h
      · rcases List.mem_cons.mp hq with rfl | hq2
        · exact absurd hqc hc
        · exact Or.inl ⟨q, hq2, hqc, hqn⟩
      · exact Or.inr h

theorem exists_max_candidate {lower : Str} :
    ∀ (m : AliasMap), (∃ p ∈ m, isCandidate lower p.1 = true) →
      ∃ p ∈ m, isCandidate lower p.1 = true ∧
        ∀ q ∈ m, isCandidate lower q.1 = true → q.1.length ≤ p.1.length
  | [], h => absurd h (by simp)
  | a :: m, h => by
    by_cases hm : ∃ p ∈ m, isCandidate lower p.1 = true
    · obtain ⟨pm, hpm, hpmc, hpmmax⟩ := exists_max_candidate m hm
      by_cases ha : isCandidate lower a.1 = true
      · by_cases hlen : a.1.length ≤ pm.1.length
        · refine ⟨pm, List.mem_cons_of_mem _ hpm, hpmc, fun q hq hqc => ?_⟩
          rcases List.mem_cons.mp hq with rfl | hq2
          · exact hlen
          · exact hpmmax q hq2 hqc
        · refine ⟨a, List.mem_cons_self _ _, ha, fun q hq hqc => ?_⟩
          rcases List.mem_cons.mp hq with rfl | hq2
          · exact Nat.le_refl _
          · exact Nat.le_trans (hpmmax q hq2 hqc) (by omega)
      · refine ⟨pm, List.mem_cons_of_mem _ hpm, hpmc, fun q hq hqc => ?_⟩
        rcases List.mem_cons.mp hq with rfl | hq2
        · exact absurd hqc ha
        · exact hpmmax q hq2 hqc
    · obtain ⟨p0, hp0, hc0⟩ := h
      have hpa : isCandidate lower a.1 = true := by
        rcases List.mem_cons.mp hp0 with rfl | hp2
        · exact hc0
        · exact absurd ⟨p0, hp2, hc0⟩ hm
      refine ⟨a, List.mem_cons_self _ _, hpa, fun q hq hqc => ?_⟩
      rcases List.mem_cons.mp hq with rfl | hq2
      · exact Nat.le_refl _
      · exact absurd ⟨q, hq2, hqc⟩ hm

theorem prefix_match_eq_none_iff {m : AliasMap} {lower : Str} :
    prefix_match m lower = none ↔ ∀ p ∈ m, isCandidate lower p.1 = false := by
  unfold prefix_match
  rw [Option.map_eq_none']
  rw [foldl_stepBest_eq_none]
  simp

theorem prefix_match_eq_some_max {m : AliasMap} {lower : Str}
    (hnd : (m.map Prod.fst).Nodup) {p0 : Str × Str} (hp0 : p0 ∈ m)
    (hc0 : isCandidate lower p0.1 = true)
    (hmax : ∀ p ∈ m, isCandidate lower p.1 = true → p.1.length ≤ p0.1.length) :
    prefix_match m lower = some p0.2 := by
  have hH : ∀ p ∈ m, isCandidate lower p.1 = true →
      p.1.length ≤ p0.1.length ∧ (p.1.length = p0.1.length → p.2 = p0.2) := by
    intro p hp hc
    refine ⟨hmax p hp hc, fun hlen => ?_⟩
    have h1 : p.1 <+: lower := (isCandidate_iff.mp hc).2.1
    have h2 : p0.1 <+: lower := (isCandidate_iff.mp hc0).2.1
    have hkey : p.1 = p0.1 := prefix_eq_of_length_eq h1 h2 hlen
    have hp' : (p0.1, p.2) ∈ m := by
      rw [← hkey, Prod.mk.eta]
      exact hp
    have hp0' : (p0.1, p0.2) ∈ m := by
      rw [Prod.mk.eta]
      exact hp0
    exact mem_value_unique hnd hp' hp0'
  have hfold := foldl_stepBest_max m none hH (Or.inl rfl) (Or.inl ⟨p0, hp0, hc0, rfl⟩)
  unfold prefix_match
  rw [hfold]
  rfl

theorem prefix_match_mem {m : AliasMap} {lower c : Str}
    (h : prefix_match m lower = some c) : ∃ p, p ∈ m ∧ p.2 = c := by
  unfold prefix_match at h
  cases hf : List.foldl (stepBest lower) none m with
  | none =>
    rw [hf] at h
    cases h
  | some x =>
    rw [hf] at h
    simp only [Option.map_some', Option.some.injEq] at h
    rcases foldl_stepBest_mem m none x hf with hb | ⟨p, hp, hpx⟩
    · cases hb
    · exact ⟨p, hp, by rw [hpx, h]⟩

/-! Helper lemmas: resolve. -/

theorem resolve_eq_of_lookup_some {m : AliasMap} {name c : Str}
    (h : List.lookup (toLowerStr name) m = some c) : resolve m name = c := by
  simp only [resolve, h]

theorem resolve_eq_of_prefix_some {m : AliasMap} {name c : Str}
    (h1 : List.lookup (toLowerStr name) m = none)
    (h2 : prefix_match m (toLowerStr name) = some c) : resolve m name = c := by
  simp only [resolve, h1, h2]

theorem resolve_eq_of_no_match {m : AliasMap} {name : Str}
    (h1 : List.lookup (toLowerStr name) m = none)
    (h2 : prefix_match m (toLowerStr name) = none) :
    resolve m name = toLowerStr name := by
  simp only [resolve, h1, h2]

theorem resolve_lowercase {m : AliasMap} (hWF : ∀ p ∈ m, toLowerStr p.2 = p.2)
    (name : Str) : toLowerStr (resolve m name) = resolve m name := by
  cases h1 : List.lookup (toLowerStr name) m with
  | some c =>
    rw [resolve_eq_of_lookup_some h1]
    exact hWF _ (lookup_mem h1)
  | none =>
    cases h2 : prefix_match m (toLowerStr name) with
    | some c =>
      rw [resolve_eq_of_prefix_some h1 h2]
      obtain ⟨p, hp, hpc⟩ := prefix_match_mem h2
      rw [← hpc]
      exact hWF p hp
    | none =>
      rw [resolve_eq_of_no_match h1 h2]
      exact toLowerStr_idem name

theorem resolve_ne_nil {m : AliasMap} (hNE : ∀ p ∈ m, p.2 ≠ ([] : Str))
    {name : Str} (hname : name ≠ []) : resolve m name ≠ [] := by
  have hfall : toLowerStr name ≠ [] := by
    intro h
    apply hname
    have hlen := congrArg List.length h
    rw [length_toLowerStr] at hlen
    exact List.length_eq_zero.mp hlen
  cases h1 : List.lookup (toLowerStr name) m with
  | some c =>
    rw [resolve_eq_of_lookup_some h1]
    exact hNE _ (lookup_mem h1)
  | none =>
    cases h2 : prefix_match m (toLowerStr name) with
    | some c =>
      rw [resolve_eq_of_prefix_some h1 h2]
      obtain ⟨p, hp, hpc⟩ := prefix_match_mem h2
      rw [← hpc]
      exact hNE p hp
    | none =>
      rw [resolve_eq_of_no_match h1 h2]
      exact hfall

/-! The claims. -/

/-- C1: for a query whose lowercase form is not a key of the Identity
Map, resolve performs prefix matching exactly as claimed: a pair whose
following character is a version dot is never a candidate; if no pair of
the map is a candidate the lowercased query is returned unchanged; and a
candidate pair of maximal alias length determines the result, namely its
canonical. -/
theorem c1_prefix_matching (m : AliasMap) (q : Str)
    (hnd : (m.map Prod.fst).Nodup)
    (hlook : List.lookup (toLowerStr q) m = none) :
    (∀ al : Str, (toLowerStr q)[al.length]? = some '.' →
      isCandidate (toLowerStr q) al = false) ∧
    ((∀ p ∈ m, isCandidate (toLowerStr q) p.1 = false) → resolve m q = toLowerStr q) ∧
    (∀ p ∈ m, isCandidate (toLowerStr q) p.1 = true →
      (∀ p2 ∈ m, isCandidate (toLowerStr q) p2.1 = true → p2.1.length ≤ p.1.length) →
      resolve m q = p.2) := by
  refine ⟨?_, ?_, ?_⟩
  · intro al hdot
    unfold isCandidate isSepAt
    rw [hdot]
    dsimp only
    have hsep : isSeparator '.' = false := by decide
    rw [hsep, Bool.and_false]
  · intro hnone
    exact resolve_eq_of_no_match hlook (prefix_match_eq_none_iff.mpr hnone)
  · intro p hp hc hmax
    exact resolve_eq_of_prefix_some hlook (prefix_match_eq_some_max hnd hp hc hmax)

/-- C1 witness: with gpt-5 and gpt-5-pro registered, the query
gpt-5-pro-max resolves through the longest candidate alias to
gpt-5-pro. -/
theorem c1_witness : resolve mG5 qMax = g5pro :=
  (c1_prefix_matching mG5 qMax (by decide) (by decide)).2.2 (g5pro, g5pro)
    (by decide) (by decide) (by decide)

/-- C2: fetch_all returns one SourceResult per source in registration
order; the result at position i is a function of source i alone, and a
source whose fetch fails contributes status Error with an empty scores
list at its own position. -/
theorem c2_fetch_all_isolated (srcs : List Source) :
    (fetch_all srcs).length = srcs.length ∧
    (∀ i : Nat, (fetch_all srcs)[i]? = (srcs[i]?).map fetchOne) ∧
    (∀ i : Nat, ∀ s : Source, ∀ e : Str, srcs[i]? = some s →
      s.fetch = Except.error e →
      (fetch_all srcs)[i]? = some ⟨s.name, none, SourceStatus.error e, []⟩) := by
  refine ⟨List.length_map srcs fetchOne, fun i => List.getElem?_map fetchOne srcs i, ?_⟩
  intro i s e hs he
  rw [show (fetch_all srcs)[i]? = (srcs[i]?).map fetchOne from
    List.getElem?_map fetchOne srcs i, hs]
  simp only [Option.map_some', Option.some.injEq]
  unfold fetchOne
  rw [he]

/-- C2 witness: over three sources whose middle fetch fails with the
message boom, the output keeps its length and position 1 carries the
error result with no scores. -/
theorem c2_witness :
    (fetch_all srcsEx).length = srcsEx.length ∧
    (fetch_all srcsEx)[1]? =
      some ⟨['b'], none, SourceStatus.error ['b', 'o', 'o', 'm'], []⟩ :=
  ⟨(c2_fetch_all_isolated srcsEx).1,
    (c2_fetch_all_isolated srcsEx).2.2 1 ⟨['b'], Except.error ['b', 'o', 'o', 'm']⟩
      ['b', 'o', 'o', 'm'] rfl rfl⟩

/-- C3: check retains per source exactly the scores passing the
disjunction of the lowercased-model comparison with the resolved
canonical and the matches test; when every canonical stored in the map
is lowercase the matches disjunct says precisely that the score's source
model name resolves to the canonical. -/
theorem c3_check_retains (map : AliasMap) (q : Str) (results : List SourceResult) :
    (cmd_check map q results = results.map (fun r =>
      { r with scores := r.scores.filter (checkPred map (resolve map q)) })) ∧
    (∀ i : Nat, ∀ r rout : SourceResult, results[i]? = some r →
      (cmd_check map q results)[i]? = some rout →
      ∀ s : ModelScore, s ∈ rout.scores ↔
        s ∈ r.scores ∧ checkPred map (resolve map q) s = true) ∧
    ((∀ p ∈ map, toLowerStr p.2 = p.2) → ∀ s : ModelScore,
      (checkPred map (resolve map q) s = true ↔
        (toLowerStr s.model = resolve map q ∨
          resolve map s.source_model_name = resolve map q))) := by
  refine ⟨rfl, ?_, ?_⟩
  · intro i r rout hr hrout s
    have h1 : (cmd_check map q results)[i]? = (results[i]?).map
        (fun r => { r with scores := r.scores.filter (checkPred map (resolve map q)) }) :=
      List.getElem?_map _ results i
    rw [h1, hr] at hrout
    simp only [Option.map_some', Option.some.injEq] at hrout
    subst hrout
    exact List.mem_filter
  · intro hWF s
    unfold checkPred matchesSrc
    rw [resolve_lowercase hWF q]
    simp only [Bool.or_eq_true, beq_iff_eq]

/-- C3 witness: checking GPT-5.2 against a result holding the score with
model gpt-5.2 and source model name GPT-5.2 plus an unrelated claude
score retains exactly the former. -/
theorem c3_witness :
    (scoreG52 ∈ rCheckOut.scores ↔
      scoreG52 ∈ rCheck.scores ∧ checkPred mCheck (resolve mCheck qG52U) scoreG52 = true) ∧
    (scoreOther ∈ rCheckOut.scores ↔
      scoreOther ∈ rCheck.scores ∧
        checkPred mCheck (resolve mCheck qG52U) scoreOther = true) ∧
    (checkPred mCheck (resolve mCheck qG52U) scoreG52 = true ↔
      (toLowerStr scoreG52.model = resolve mCheck qG52U ∨
        resolve mCheck scoreG52.source_model_name = resolve mCheck qG52U)) :=
  ⟨(c3_check_retains mCheck qG52U [rCheck]).2.1 0 rCheck rCheckOut rfl (by decide) scoreG52,
    (c3_check_retains mCheck qG52U [rCheck]).2.1 0 rCheck rCheckOut rfl (by decide) scoreOther,
    (c3_check_retains mCheck qG52U [rCheck]).2.2 (by decide) scoreG52⟩

/-- C4 counterexample: a parseable entry with ttl_hours equal to 2 ^ 63
and age zero has its whole-hour age strictly below the stored ttl_hours,
yet get returns none: the code compares against the ttl cast to i64,
which is negative for this stored value. -/
theorem c4_counterexample :
    numHours (0 - 0) < ((2 ^ 63 : Nat) : Int) ∧ Cache.get bigStore ['a'] 0 = none :=
  ⟨by decide, by decide⟩

/-- C4 amended: when the configured ttl_hours is below 2 ^ 63, set
followed by get returns the stored pair exactly when the whole-hour age
is strictly below that ttl; and for any stored parseable entry whose
ttl_hours is below 2 ^ 63 (the values the i64 cast preserves), get hits
exactly when the whole-hour age is strictly below the stored
ttl_hours. -/
theorem c4_cache_roundtrip {α : Type} (store : Str → Option (RawFile α)) (k : Str)
    (d : α) (ttl : Nat) (t now : Int) (httl : ttl < 2 ^ 63) :
    (Cache.get (Cache.set store ttl k d t) k now =
      if numHours (now - t) < (ttl : Int) then some (t, d) else none) ∧
    (∀ e : CacheEntry α, store k = some (RawFile.entry e) → e.ttl_hours < 2 ^ 63 →
      (Cache.get store k now = some (e.fetched_at, e.data) ↔
        numHours (now - e.fetched_at) < (e.ttl_hours : Int))) := by
  have hcast : ∀ n : Nat, n < 2 ^ 63 → u64AsI64 n = (n : Int) := by
    intro n hn
    unfold u64AsI64
    rw [Nat.mod_eq_of_lt (by omega), if_pos hn]
  constructor
  · unfold Cache.get Cache.set
    rw [if_pos rfl]
    dsimp only
    rw [hcast ttl httl]
  · intro e he hettl
    unfold Cache.get
    rw [he]
    dsimp only
    rw [hcast e.ttl_hours hettl]
    constructor
    · intro h
      by_cases hcond : numHours (now - e.fetched_at) < (e.ttl_hours : Int)
      · exact hcond
      · rw [if_neg hcond] at h
        cases h
    · intro h
      rw [if_pos h]

/-- C4 witness: storing payload 5 at key a with ttl 24 and reading it
back 100 seconds later returns the payload with the stored timestamp. -/
theorem c4_witness :
    Cache.get (Cache.set emptyStore 24 ['a'] (5 : Nat) 0) ['a'] 100 = some (0, 5) := by
  have h := (c4_cache_roundtrip emptyStore ['a'] (5 : Nat) 24 0 100 (by decide)).1
  rw [h]
  decide

/-- C5 counterexample: resolve returns the empty string on the empty
query, and on the nonempty query x when the dataset binds alias x to an
empty canonical; both outputs are empty, refuting non-emptiness as
claimed for every input. -/
theorem c5_counterexample :
    resolve (load dsG5 []) [] = [] ∧ resolve (load dsEmptyCanon []) ['x'] = [] :=
  ⟨by decide, by decide⟩

/-- C5 amended: resolve is total by construction and returns a fully
lowercase string whenever every canonical stored in the map is lowercase
(parse_into lowercases all of them); the result is non-empty provided
the input and every stored canonical are non-empty. -/
theorem c5_resolve_total (m : AliasMap) (name : Str)
    (hWF : ∀ p ∈ m, toLowerStr p.2 = p.2)
    (hNE : ∀ p ∈ m, p.2 ≠ ([] : Str))
    (hname : name ≠ []) :
    resolve m name ≠ [] ∧ toLowerStr (resolve m name) = resolve m name :=
  ⟨resolve_ne_nil hNE hname, resolve_lowercase hWF name⟩

/-- C5 witness: resolving GPT-5 over the gpt-5 map yields a non-empty
lowercase string. -/
theorem c5_witness :
    resolve mCheck ['G', 'P', 'T', '-', '5'] ≠ [] ∧
      toLowerStr (resolve mCheck ['G', 'P', 'T', '-', '5']) =
        resolve mCheck ['G', 'P', 'T', '-', '5'] :=
  c5_resolve_total mCheck ['G', 'P', 'T', '-', '5'] (by decide) (by decide) (by decide)

/-! Dataset loading keeps every stored canonical lowercase. -/

theorem foldl_preserves {β : Type} (inv : AliasMap → Prop) (f : AliasMap → β → AliasMap)
    (hf : ∀ m b, inv m → inv (f m b)) :
    ∀ (l : List β) (m : AliasMap), inv m → inv (List.foldl f m l)
  | [], _, h => h
  | b :: l, m, h => foldl_preserves inv f hf l (f m b) (hf m b h)

theorem insertKV_preserves_value {P : Str → Prop} {m : AliasMap}
    (hm : ∀ p ∈ m, P p.2) {k v : Str} (hv : P v) :
    ∀ p ∈ insertKV m k v, P p.2 := by
  intro p hp
  unfold insertKV at hp
  by_cases hk : m.any (fun q => q.1 == k)
  · rw [if_pos hk] at hp
    obtain ⟨q, hq, hqp⟩ := List.mem_map.mp hp
    by_cases hq2 : (q.1 == k) = true
    · rw [if_pos hq2] at hqp
      rw [← hqp]
      exact hv
    · rw [if_neg hq2] at hqp
      rw [← hqp]
      exact hm q hq
  · rw [if_neg hk] at hp
    rcases List.mem_append.mp hp with h | h
    · exact hm p h
    · have hpkv : p = (k, v) := by simpa using h
      rw [hpkv]
      exact hv

theorem parse_into_values_lowercase (entries : List AliasEntry) (m : AliasMap)
    (hm : ∀ p ∈ m, toLowerStr p.2 = p.2) :
    ∀ p ∈ parse_into entries m, toLowerStr p.2 = p.2 := by
  unfold parse_into
  refine foldl_preserves (fun mm => ∀ p ∈ mm, toLowerStr p.2 = p.2) _ ?_ entries m hm
  intro mm e hmm
  dsimp only
  refine foldl_preserves (fun mm2 => ∀ p ∈ mm2, toLowerStr p.2 = p.2) _ ?_ e.aliases _ ?_
  · intro mm2 a hmm2
    exact insertKV_preserves_value (P := fun v => toLowerStr v = v) hmm2
      (toLowerStr_idem e.canonical)
  · exact insertKV_preserves_value (P := fun v => toLowerStr v = v) hmm
      (toLowerStr_idem e.canonical)

theorem load_values_lowercase (bundled override : List AliasEntry) :
    ∀ p ∈ load bundled override, toLowerStr p.2 = p.2 :=
  parse_into_values_lowercase override _
    (parse_into_values_lowercase bundled [] (fun p hp => absurd hp (List.not_mem_nil p)))

/-- C6 counterexample: merging the bundled dataset (canonical a, alias x)
with the override dataset (canonical b, alias a) rebinds key a to b
while x still resolves to a, so resolve is not idempotent at x. -/
theorem c6_counterexample :
    resolve (load dsA dsB) (resolve (load dsA dsB) ['x']) ≠
      resolve (load dsA dsB) ['x'] := by decide

/-- C6 amended: resolve is idempotent on every Identity Map whose stored
canonicals are lowercase and each bound to themselves as keys; the
dataset-merge overwrite rule can break the latter when a later entry
registers an earlier entry's canonical as its own alias. -/
theorem c6_resolve_idempotent (m : AliasMap) (n : Str)
    (hWF : ∀ p ∈ m, toLowerStr p.2 = p.2)
    (hClosed : ∀ p ∈ m, List.lookup p.2 m = some p.2) :
    resolve m (resolve m n) = resolve m n := by
  have hval : ∀ c : Str, (∃ p, p ∈ m ∧ p.2 = c) → resolve m c = c := by
    rintro c ⟨p, hp, rfl⟩
    apply resolve_eq_of_lookup_some
    rw [hWF p hp]
    exact hClosed p hp
  cases h1 : List.lookup (toLowerStr n) m with
  | some c =>
    rw [resolve_eq_of_lookup_some h1]
    exact hval c ⟨_, lookup_mem h1, rfl⟩
  | none =>
    cases h2 : prefix_match m (toLowerStr n) with
    | some c =>
      rw [resolve_eq_of_prefix_some h1 h2]
      exact hval c (prefix_match_mem h2)
    | none =>
      rw [resolve_eq_of_no_match h1 h2]
      have h3 : resolve m (toLowerStr n) = toLowerStr (toLowerStr n) :=
        resolve_eq_of_no_match (by rw [toLowerStr_idem]; exact h1)
          (by rw [toLowerStr_idem]; exact h2)
      rw [h3, toLowerStr_idem]

/-- C6 witness: on the closed map registering gpt-5 with alias gpt5,
resolve is idempotent at the query GPT5-Hi. -/
theorem c6_witness :
    resolve mIdem (resolve mIdem ['G', 'P', 'T', '5', '-', 'H', 'i']) =
      resolve mIdem ['G', 'P', 'T', '5', '-', 'H', 'i'] :=
  c6_resolve_idempotent mIdem ['G', 'P', 'T', '5', '-', 'H', 'i'] (by decide) (by decide)

/-- C7: two candidate aliases of equal length are equal strings (each is
the query's prefix of that length), so a tie between distinct aliases
cannot occur; and resolve is independent of the map's iteration order:
permuting a map with unique keys resolves every query identically. -/
theorem c7_order_independent (m1 m2 : AliasMap) (q : Str)
    (hnd : (m1.map Prod.fst).Nodup) (hperm : List.Perm m1 m2) :
    (∀ p1 ∈ m1, ∀ p2 ∈ m1, isCandidate (toLowerStr q) p1.1 = true →
      isCandidate (toLowerStr q) p2.1 = true → p1.1.length = p2.1.length →
      p1.1 = p2.1) ∧
    resolve m1 q = resolve m2 q := by
  constructor
  · intro p1 _ p2 _ hc1 hc2 hlen
    exact prefix_eq_of_length_eq (isCandidate_iff.mp hc1).2.1
      (isCandidate_iff.mp hc2).2.1 hlen
  · have hnd2 : (m2.map Prod.fst).Nodup := ((hperm.map Prod.fst).nodup_iff).mp hnd
    have hlk := lookup_perm hperm hnd (toLowerStr q)
    cases h1 : List.lookup (toLowerStr q) m1 with
    | some c =>
      rw [resolve_eq_of_lookup_some h1,
        resolve_eq_of_lookup_some (hlk.symm.trans h1)]
    | none =>
      have h1b : List.lookup (toLowerStr q) m2 = none := hlk.symm.trans h1
      by_cases hcand : ∃ p ∈ m1, isCandidate (toLowerStr q) p.1 = true
      · obtain ⟨p0, hp0, hc0, hmax⟩ := exists_max_candidate m1 hcand
        have hmax2 : ∀ p ∈ m2, isCandidate (toLowerStr q) p.1 = true →
            p.1.length ≤ p0.1.length :=
          fun p hp hc => hmax p (hperm.mem_iff.mpr hp) hc
        rw [resolve_eq_of_prefix_some h1 (prefix_match_eq_some_max hnd hp0 hc0 hmax),
          resolve_eq_of_prefix_some h1b
            (prefix_match_eq_some_max hnd2 (hperm.mem_iff.mp hp0) hc0 hmax2)]
      · have hnone1 : ∀ p ∈ m1, isCandidate (toLowerStr q) p.1 = false := by
          intro p hp
          rcases Bool.eq_false_or_eq_true (isCandidate (toLowerStr q) p.1) with h | h
          · exact absurd ⟨p, hp, h⟩ hcand
          · exact h
        have hnone2 : ∀ p ∈ m2, isCandidate (toLowerStr q) p.1 = false :=
          fun p hp => hnone1 p (hperm.mem_iff.mpr hp)
        rw [resolve_eq_of_no_match h1 (prefix_match_eq_none_iff.mpr hnone1),
          resolve_eq_of_no_match h1b (prefix_match_eq_none_iff.mpr hnone2)]

/-- C7 witness: the maps holding gpt-5 and gpt-5-pro in opposite
iteration orders resolve gpt-5-pro-max identically. -/
theorem c7_witness : resolve mG5 qMax = resolve mG5r qMax :=
  (c7_order_independent mG5 mG5r qMax (by decide) (by decide)).2

/-- C8: get never surfaces an error: a missing backing file and a file
whose content does not parse both yield none, the same observable
outcome as a cache miss. -/
theorem c8_get_miss {α : Type} (store : Str → Option (RawFile α)) (k : Str) (now : Int) :
    (store k = none → Cache.get store k now = none) ∧
    (store k = some RawFile.corrupt → Cache.get store k now = none) := by
  constructor
  · intro h
    unfold Cache.get
    rw [h]
  · intro h
    unfold Cache.get
    rw [h]

/-- C8 witness: a store with a corrupt file at key a and no file at key
b misses on both keys. -/
theorem c8_witness :
    Cache.get corruptStore ['a'] 0 = none ∧ Cache.get corruptStore ['b'] 0 = none :=
  ⟨(c8_get_miss corruptStore ['a'] 0).2 (by decide),
    (c8_get_miss corruptStore ['b'] 0).1 (by decide)⟩

/-- C9: every score surviving compare has a source model name resolving
to one of the two resolved query canonicals. -/
theorem c9_compare_sound (map : AliasMap) (m1 m2 : Str) (results : List SourceResult)
    (i : Nat) (rout : SourceResult)
    (hout : (cmd_compare map m1 m2 results)[i]? = some rout)
    (s : ModelScore) (hs : s ∈ rout.scores) :
    resolve map s.source_model_name = resolve map m1 ∨
      resolve map s.source_model_name = resolve map m2 := by
  have h1 : (cmd_compare map m1 m2 results)[i]? = (results[i]?).map
      (fun r =>
        { r with
          scores := r.scores.filter (comparePred map (resolve map m1) (resolve map m2)) }) :=
    List.getElem?_map _ results i
  rw [h1] at hout
  cases hr : results[i]? with
  | none =>
    rw [hr] at hout
    cases hout
  | some r =>
    rw [hr] at hout
    simp only [Option.map_some', Option.some.injEq] at hout
    subst hout
    have hpred := (List.mem_filter.mp hs).2
    unfold comparePred at hpred
    simp only [Bool.or_eq_true, beq_iff_eq] at hpred
    exact hpred

/-- C9 witness: comparing gpt-5 with claude, the surviving score whose
raw name is GPT-5 high resolves to one of the two canonicals. -/
theorem c9_witness :
    resolve mCheck scoreKeep.source_model_name = resolve mCheck g5 ∨
      resolve mCheck scoreKeep.source_model_name = resolve mCheck qClaude :=
  c9_compare_sound mCheck g5 qClaude [rCmp] 0 rCmp (by decide) scoreKeep (by decide)

/-- C10: rank, check, compare and sources preserve the per-source frame
of fetch_all's output: the lists keep their length and order and every
result keeps its source, fetched_at and status; only the scores lists
change, and a source with no matching scores stays present. -/
theorem c10_frame_preserved (map : AliasMap) (q1 q2 : Str) (top : Option Nat)
    (results : List SourceResult) :
    (cmd_rank results top).map frameOf = results.map frameOf ∧
    (cmd_check map q1 results).map frameOf = results.map frameOf ∧
    (cmd_compare map q1 q2 results).map frameOf = results.map frameOf ∧
    cmd_sources results = results := by
  refine ⟨?_, ?_, ?_, rfl⟩
  · cases top with
    | none => rfl
    | some n =>
      unfold cmd_rank
      rw [List.map_map]
      exact List.map_congr_left (fun r _ => rfl)
  · unfold cmd_check
    rw [List.map_map]
    exact List.map_congr_left (fun r _ => rfl)
  · unfold cmd_compare
    rw [List.map_map]
    exact List.map_congr_left (fun r _ => rfl)

end Pondus
